import Mathlib

/-!
# Verification of the `oif.cpp` fusion-stage interpreters

A shallow embedding of the AST interpreter family in `src/oif.cpp`:
a `Context` (argument stack + return-signal register), a polymorphic
node tree evaluated through `eval`, and the four fusion stages
(`Simplest`, `SimpleFusion`, `BetterFusion`, `SimplifyCalls`) that all
run the doubly-recursive Fibonacci program.

Machine integers: `uint32_t` is modelled as `Nat` with explicit
reduction modulo `2 ^ 32 = 4294967296` at every point the C++ code
performs 32-bit arithmetic or reads a `uint32_t` field.

Since `CallNode` recursion is unbounded in the source, evaluation is
indexed by fuel; `none` means the fuel bound was hit, never an error:
the C++ code has no failure path at all.
-/

/-- `2 ^ 32`, the modulus of `uint32_t` arithmetic. -/
def u32Mod : Nat := 4294967296

/-- Reading or storing a value as `uint32_t`. -/
def wrap (n : Nat) : Nat := n % u32Mod

/-- `uint32_t` addition (wraparound). -/
def wadd (a b : Nat) : Nat := wrap (a + b)

/-- `uint32_t` subtraction (wraparound): for `a b < 2^32` this is
`(a + 2^32 - b) % 2^32`, the value of `a - b` on `uint32_t`. -/
def wsub (a b : Nat) : Nat := wrap (a + (u32Mod - wrap b))

/-- `uint32_t` comparison: `a < b` as the C++ `<` on `uint32_t`,
promoted back to `uint32_t` (1 or 0). -/
def wless (a b : Nat) : Nat := if a < b then 1 else 0

/-- `Simplest::Context` (shared by all stages via `using namespace`):
`stopForReturn`, `returnValue`, the argument stack and `stackTop`.
The C++ stack is a raw `uint32_t[4096]` with unchecked indexing; it is
modelled as a list written through `stackSet` and read with `listNth 0`
(uninitialized slots read as 0; the programs under test never read a
slot that was not written). -/
structure Context where
  stopForReturn : Bool
  returnValue : Nat
  stack : List Nat
  stackTop : Nat
deriving DecidableEq, Repr

/-- A fresh `Context` as built by the C++ constructor:
`stopForReturn = false`, `returnValue = 0`, empty frame stack. -/
def Context.init : Context :=
  { stopForReturn := false, returnValue := 0, stack := [], stackTop := 0 }

/-- Write `v` at index `i` of the modelled argument stack (the C++
`ctx->stack[i] = v`), padding with zeroes if the list is shorter. -/
def stackSet : List Nat → Nat → Nat → List Nat
  | _ :: rest, 0, v => v :: rest
  | [], 0, v => [v]
  | [], i + 1, v => 0 :: stackSet [] i v
  | x :: rest, i + 1, v => x :: stackSet rest i v

/-- Total list indexing with a default (used for stack reads and the
non-owning function/callee references). -/
def listNth {α : Type} (d : α) : List α → Nat → α
  | [], _ => d
  | x :: _, 0 => x
  | _ :: rest, i + 1 => listNth d rest i

/-- The capacity of the C++ argument stack: `new uint32_t[4096]`. -/
def stackCapacity : Nat := 4096

/-- The node kinds of all four stages, merged into one syntax type.
Each constructor corresponds to one C++ node struct, holding exactly
the non-child scalar fields of that struct:
`const` = `ConstNode`, `add` = `AddNode`, `sub` = `SubNode`,
`less` = `LessNode`, `if_` = `IfNode`, `call` = `Simplest::CallNode`
(the `Function*` is an index into the environment),
`ret` = `ReturnNode`, `arg` = `ArgNode`,
`lessConst` = `SimpleFusion::LessConstNode`,
`subConst` = `SimpleFusion::SubConstNode`,
`lessArgConst` = `BetterFusion::LessArgConstNode` (its `ArgNode* lhs`
has no fields and its `ConstNode* rhs` only `value`),
`subArgConst` = `BetterFusion::SubArgConstNode`,
`callAny` = `SimplifyCalls::CallAnyNode` (the callee `Node*` is an
index into the environment), `ifElse` = `SimplifyCalls::IfElseNode`. -/
inductive Node where
  | const (value : Nat)
  | add (lhs rhs : Node)
  | sub (lhs rhs : Node)
  | less (lhs rhs : Node)
  | if_ (condition body : Node)
  | call (function : Nat) (arg : Node)
  | ret (rhs : Node)
  | arg
  | lessConst (lhs : Node) (constant : Nat)
  | subConst (lhs : Node) (constant : Nat)
  | lessArgConst (constant : Nat)
  | subArgConst (constant : Nat)
  | callAny (function : Nat) (arg : Node)
  | ifElse (condition ifBody elseBody : Node)
deriving DecidableEq, Repr

/-- The non-owning references a tree may hold: `call` sites reference a
`Function` (an ordered list of statement nodes), `callAny` sites
reference a bare callee node.  Pointers become indices. -/
structure Env where
  funcs : List (List Node)
  anys : List Node

/-- Push the argument value for a new frame:
`ctx->stack[ctx->stackTop] = v; ctx->stackTop += 1;`. -/
def Context.push (ctx : Context) (v : Nat) : Context :=
  { ctx with stack := stackSet ctx.stack ctx.stackTop v,
             stackTop := ctx.stackTop + 1 }

namespace BetterFusion

/-- `BetterFusion::ConstNode::compute`: returns the `uint32_t` field. -/
def ConstNode.compute (value : Nat) (_ctx : Context) : Nat := wrap value

/-- `BetterFusion::ArgNode::compute`:
`return ctx->stack[ctx->stackTop - 1];`. -/
def ArgNode.compute (ctx : Context) : Nat :=
  listNth 0 ctx.stack (ctx.stackTop - 1)

/-- `BetterFusion::LessArgConstNode::compute`:
`return lhs->compute(ctx) < rhs->compute(ctx);`. -/
def LessArgConstNode.compute (constant : Nat) (ctx : Context) : Nat :=
  wless (ArgNode.compute ctx) (ConstNode.compute constant ctx)

/-- `BetterFusion::SubArgConstNode::compute`:
`return lhs->compute(ctx) - rhs->compute(ctx);`. -/
def SubArgConstNode.compute (constant : Nat) (ctx : Context) : Nat :=
  wsub (ArgNode.compute ctx) (ConstNode.compute constant ctx)

end BetterFusion

/-- The statement loop of `CallNode::eval`: run the body statements in
order, breaking as soon as `stopForReturn` is set.  `step` is the
evaluator used for each statement (virtual `eval` in C++). -/
def runBody (step : Node → Context → Option (Nat × Context)) :
    List Node → Context → Option Context
  | [], ctx => some ctx
  | stmt :: rest, ctx =>
    match step stmt ctx with
    | none => none
    | some (_, c1) =>
      if c1.stopForReturn then some c1 else runBody step rest c1

/-- One level of `eval` dispatch, translated case by case from the C++
`eval` bodies.  `recur` is the evaluator used where the C++ code makes
a call that can recurse unboundedly (running a callee body); child
expressions of the same node are evaluated structurally at the same
level, exactly as the C++ statement text nests them. -/
def evalStep (env : Env) (recur : Node → Context → Option (Nat × Context)) :
    Node → Context → Option (Nat × Context)
  | .const v, ctx => some (wrap v, ctx)
  | .add l r, ctx =>
    match evalStep env recur l ctx with
    | none => none
    | some (a, c1) =>
      match evalStep env recur r c1 with
      | none => none
      | some (b, c2) => some (wadd a b, c2)
  | .sub l r, ctx =>
    match evalStep env recur l ctx with
    | none => none
    | some (a, c1) =>
      match evalStep env recur r c1 with
      | none => none
      | some (b, c2) => some (wsub a b, c2)
  | .less l r, ctx =>
    match evalStep env recur l ctx with
    | none => none
    | some (a, c1) =>
      match evalStep env recur r c1 with
      | none => none
      | some (b, c2) => some (wless a b, c2)
  | .if_ cond body, ctx =>
    match evalStep env recur cond ctx with
    | none => none
    | some (v, c1) =>
      if v ≠ 0 then
        match evalStep env recur body c1 with
        | none => none
        | some (_, c2) => some (0, c2)
      else some (0, c1)
  | .call f a, ctx =>
    match evalStep env recur a ctx with
    | none => none
    | some (v, c1) =>
      match runBody recur (listNth [] env.funcs f) (c1.push v) with
      | none => none
      | some c2 =>
        some (c2.returnValue,
              { c2 with stopForReturn := false, stackTop := c2.stackTop - 1 })
  | .ret e, ctx =>
    match evalStep env recur e ctx with
    | none => none
    | some (v, c1) =>
      some (0, { c1 with returnValue := v, stopForReturn := true })
  | .arg, ctx => some (listNth 0 ctx.stack (ctx.stackTop - 1), ctx)
  | .lessConst l c, ctx =>
    match evalStep env recur l ctx with
    | none => none
    | some (a, c1) => some (wless a (wrap c), c1)
  | .subConst l c, ctx =>
    match evalStep env recur l ctx with
    | none => none
    | some (a, c1) => some (wsub a (wrap c), c1)
  | .lessArgConst c, ctx =>
    some (BetterFusion.LessArgConstNode.compute c ctx, ctx)
  | .subArgConst c, ctx =>
    some (BetterFusion.SubArgConstNode.compute c ctx, ctx)
  | .callAny f a, ctx =>
    match evalStep env recur a ctx with
    | none => none
    | some (v, c1) =>
      match recur (listNth (.const 0) env.anys f) (c1.push v) with
      | none => none
      | some (r, c2) =>
        some (r, { c2 with stopForReturn := false, stackTop := c2.stackTop - 1 })
  | .ifElse cond t e, ctx =>
    match evalStep env recur cond ctx with
    | none => none
    | some (v, c1) =>
      if v ≠ 0 then evalStep env recur t c1 else evalStep env recur e c1

/-- The full evaluator: `fuel` bounds the call depth (one unit per
entered callee body).  `none` only ever means the bound was reached. -/
def evalNode (env : Env) : Nat → Node → Context → Option (Nat × Context)
  | 0, _, _ => none
  | fuel + 1, e, ctx => evalStep env (evalNode env fuel) e ctx

/-- The plain recursive reference `fib` at the bottom of `oif.cpp`:
`if (n < 2) return n; return fib(n - 1) + fib(n - 2);` on `uint32_t`. -/
def fib : Nat → Nat
  | 0 => 0
  | 1 => 1
  | n + 2 => wadd (fib (n + 1)) (fib n)

namespace Simplest

/-- The `Function` built by `Simplest::fib`: the two statements of the
Fibonacci body (base-case `if`/`return`, then the doubly recursive
`return`), with the self-recursive `Function*` as index 0. -/
def fibFunction : List Node :=
  [ .if_ (.less .arg (.const 2)) (.ret .arg),
    .ret (.add (.call 0 (.sub .arg (.const 1)))
               (.call 0 (.sub .arg (.const 2)))) ]

/-- The function table of `Simplest::fib`: just the one function. -/
def fibEnv : Env := { funcs := [fibFunction], anys := [] }

/-- `Simplest::fib(n)`: evaluate `CallNode(function, ConstNode(n))`
against a fresh `Context`.  Fuel `n + 2` covers the call depth. -/
def fib (n : Nat) : Option Nat :=
  (evalNode fibEnv (n + 2) (.call 0 (.const n)) Context.init).map Prod.fst

end Simplest

namespace SimpleFusion

/-- The `Function` built by `SimpleFusion::fib`: as `Simplest` but with
the fused `LessConstNode`/`SubConstNode`. -/
def fibFunction : List Node :=
  [ .if_ (.lessConst .arg 2) (.ret .arg),
    .ret (.add (.call 0 (.subConst .arg 1))
               (.call 0 (.subConst .arg 2))) ]

/-- The function table of `SimpleFusion::fib`. -/
def fibEnv : Env := { funcs := [fibFunction], anys := [] }

/-- `SimpleFusion::fib(n)`. -/
def fib (n : Nat) : Option Nat :=
  (evalNode fibEnv (n + 2) (.call 0 (.const n)) Context.init).map Prod.fst

end SimpleFusion

namespace BetterFusion

/-- The `Function` built by `BetterFusion::fib`: as before but with
`LessArgConstNode`/`SubArgConstNode` (each holding an `ArgNode` and a
`ConstNode` evaluated through `compute`). -/
def fibFunction : List Node :=
  [ .if_ (.lessArgConst 2) (.ret .arg),
    .ret (.add (.call 0 (.subArgConst 1))
               (.call 0 (.subArgConst 2))) ]

/-- The function table of `BetterFusion::fib`. -/
def fibEnv : Env := { funcs := [fibFunction], anys := [] }

/-- `BetterFusion::fib(n)`. -/
def fib (n : Nat) : Option Nat :=
  (evalNode fibEnv (n + 2) (.call 0 (.const n)) Context.init).map Prod.fst

end BetterFusion

namespace SimplifyCalls

/-- The single-expression body built by `SimplifyCalls::fib`: the
`IfElseNode` whose else branch calls back to itself (`CallAnyNode`
referencing the enclosing node, here index 0 of the callee table). -/
def fibNode : Node :=
  .ifElse (.lessArgConst 2) .arg
    (.add (.callAny 0 (.subArgConst 1))
          (.callAny 0 (.subArgConst 2)))

/-- The callee table of `SimplifyCalls::fib`: just `fibNode`. -/
def fibEnv : Env := { funcs := [], anys := [fibNode] }

/-- `SimplifyCalls::fib(n)`: evaluate `CallAnyNode(&function,
ConstNode(n))` against a fresh `Context`. -/
def fib (n : Nat) : Option Nat :=
  (evalNode fibEnv (n + 2) (.callAny 0 (.const n)) Context.init).map Prod.fst

end SimplifyCalls

/-- Does a node syntactically contain a `ReturnNode`?  (`call` and
`callAny` bodies live in the environment and are covered by
`Env.noRet`.) -/
def Node.hasRet : Node → Bool
  | .ret _ => true
  | .const _ | .arg | .lessArgConst _ | .subArgConst _ => false
  | .add l r | .sub l r | .less l r => l.hasRet || r.hasRet
  | .if_ c b => c.hasRet || b.hasRet
  | .call _ a | .callAny _ a => a.hasRet
  | .lessConst l _ | .subConst l _ => l.hasRet
  | .ifElse c t e => c.hasRet || t.hasRet || e.hasRet

/-- No `ReturnNode` occurs in any function body or callee node of the
environment. -/
def Env.noRet (env : Env) : Bool :=
  env.funcs.all (fun body => body.all (fun s => !s.hasRet)) &&
    env.anys.all (fun s => !s.hasRet)



/-! ### Small concrete programs used as fixtures -/

/-- Two functions: index 0 is `{ return 5; }`, index 1 is a body whose
single statement is the bare expression `1` — no `Return` ever fires
in it. -/
def retFiveEnv : Env :=
  { funcs := [[.ret (.const 5)], [.const 1]], anys := [] }

/-- One function whose body never contains a `ReturnNode`. -/
def noRetEnv : Env := { funcs := [[.const 1]], anys := [] }

/-- The identity function `{ return arg; }`, plus a bare `arg` callee
for `CallAnyNode`. -/
def mixedEnv : Env := { funcs := [[.ret .arg]], anys := [.arg] }

/-- The identity function `{ return arg; }` alone. -/
def overflowEnv : Env := { funcs := [[.ret .arg]], anys := [] }

/-- A context whose argument stack already holds `stackCapacity` (4096)
frames: the C++ `stack` array is completely full, `stackTop == 4096`.
The next push writes `stack[4096]`, one past the end of the allocation. -/
def fullCtx : Context :=
  { stopForReturn := false, returnValue := 0,
    stack := List.replicate stackCapacity 0, stackTop := stackCapacity }

/-! ## Basic lemmas about the stack model and `uint32_t` arithmetic -/

theorem stackSet_listNth_self : ∀ (i : Nat) (l : List Nat) (v : Nat),
    listNth 0 (stackSet l i v) i = v := by
  intro i
  induction i with
  | zero => intro l v; cases l <;> rfl
  | succ i ih => intro l v; cases l <;> simp only [stackSet, listNth, ih]

theorem stackSet_listNth_ne : ∀ (j i : Nat) (l : List Nat) (v : Nat), i ≠ j →
    listNth 0 (stackSet l j v) i = listNth 0 l i := by
  intro j
  induction j with
  | zero =>
    intro i l v hne
    obtain ⟨i', rfl⟩ : ∃ i', i = i' + 1 := ⟨i - 1, by omega⟩
    cases l <;> rfl
  | succ j ih =>
    intro i l v hne
    cases l with
    | nil =>
      cases i with
      | zero => rfl
      | succ i' =>
        simp only [stackSet, listNth]
        rw [ih i' [] v (by omega)]
        cases i' <;> rfl
    | cons x rest =>
      cases i with
      | zero => rfl
      | succ i' =>
        simp only [stackSet, listNth]
        exact ih i' rest v (by omega)

theorem wrap_eq_of_lt {n : Nat} (h : n < u32Mod) : wrap n = n :=
  Nat.mod_eq_of_lt h

theorem wrap_lt (n : Nat) : wrap n < u32Mod :=
  Nat.mod_lt _ (by norm_num [u32Mod])

theorem wrap_le (n : Nat) : wrap n ≤ n :=
  Nat.mod_le _ _

theorem wrap_zero : wrap 0 = 0 := rfl

theorem wrap_one : wrap 1 = 1 := rfl

theorem wrap_two : wrap 2 = 2 := rfl

theorem wsub_of_le {a b : Nat} (hb : b ≤ a) (ha : a < u32Mod) :
    wsub a b = a - b := by
  simp only [wsub, wrap, u32Mod] at *
  omega

theorem wadd_lt (a b : Nat) : wadd a b < u32Mod :=
  Nat.mod_lt _ (by norm_num [u32Mod])

theorem fib_base {n : Nat} (h : n < 2) : fib n = n := by
  interval_cases n <;> rfl

theorem fib_add_two (n : Nat) : fib (n + 2) = wadd (fib (n + 1)) (fib n) := rfl

theorem fib_lt (n : Nat) : fib n < u32Mod := by
  match n with
  | 0 => decide
  | 1 => decide
  | n + 2 => exact wadd_lt _ _

theorem evalNode_succ (env : Env) (fuel : Nat) (e : Node) (ctx : Context) :
    evalNode env (fuel + 1) e ctx = evalStep env (evalNode env fuel) e ctx :=
  rfl

/-! ## Evaluation of the `Simplest::fib` program -/

/-- Running the `Simplest` Fibonacci body in a frame whose argument is
`m` yields `returnValue = fib m`, leaves `stackTop` at the frame's
level, sets the return signal, and scribbles only above the frame. -/
theorem simplest_runBody_spec :
    ∀ fuel m, m < fuel → m < u32Mod → ∀ (rv : Nat) (st : List Nat) (t : Nat),
    ∃ st' : List Nat,
      runBody (evalNode Simplest.fibEnv fuel) Simplest.fibFunction
          { stopForReturn := false, returnValue := rv,
            stack := stackSet st t m, stackTop := t + 1 } =
        some { stopForReturn := true, returnValue := fib m,
               stack := st', stackTop := t + 1 } ∧
      ∀ i, i ≤ t → listNth 0 st' i = listNth 0 (stackSet st t m) i := by
  intro fuel
  induction fuel with
  | zero => intro m hm; omega
  | succ f ih =>
    intro m hmf hmU rv st t
    have hargm : listNth 0 (stackSet st t m) t = m := stackSet_listNth_self t st m
    by_cases hm2 : m < 2
    · refine ⟨stackSet st t m, ?_, fun i _ => rfl⟩
      have hfib : fib m = m := fib_base hm2
      simp [runBody, Simplest.fibFunction, evalNode_succ, evalStep, hargm,
            wrap_two, wless, hm2, hfib]
    · obtain ⟨k, rfl⟩ : ∃ k, m = k + 2 := ⟨m - 2, by omega⟩
      obtain ⟨st1, h1run, h1pres⟩ :=
        ih (k + 1) (by omega) (by omega) rv (stackSet st t (k + 2)) (t + 1)
      obtain ⟨st2, h2run, h2pres⟩ :=
        ih k (by omega) (by omega) (fib (k + 1)) st1 (t + 1)
      have hlt : ¬ (k + 2 < 2) := by omega
      have hsub1 : wsub (k + 2) 1 = k + 1 := by
        rw [wsub_of_le (by omega) hmU]; omega
      have hsub2 : wsub (k + 2) 2 = k := by
        rw [wsub_of_le (by omega) hmU]; omega
      have harg2 : listNth 0 st1 t = k + 2 := by
        rw [h1pres t (by omega),
            stackSet_listNth_ne (t + 1) t _ _ (by omega),
            stackSet_listNth_self t st (k + 2)]
      have henv : listNth [] Simplest.fibEnv.funcs 0 = Simplest.fibFunction := rfl
      have hstmt1 : evalNode Simplest.fibEnv (f + 1)
          (.if_ (.less .arg (.const 2)) (.ret .arg))
          { stopForReturn := false, returnValue := rv,
            stack := stackSet st t (k + 2), stackTop := t + 1 } =
          some (0, { stopForReturn := false, returnValue := rv,
                     stack := stackSet st t (k + 2), stackTop := t + 1 }) := by
        simp [evalNode_succ, evalStep, hargm, wrap_two, wless, hlt]
      have hstmt2 : evalNode Simplest.fibEnv (f + 1)
          (.ret (.add (.call 0 (.sub .arg (.const 1)))
                      (.call 0 (.sub .arg (.const 2)))))
          { stopForReturn := false, returnValue := rv,
            stack := stackSet st t (k + 2), stackTop := t + 1 } =
          some (0, { stopForReturn := true, returnValue := fib (k + 2),
                     stack := st2, stackTop := t + 1 }) := by
        simp only [evalNode_succ, evalStep, Context.push, henv,
                   Nat.add_sub_cancel, hargm, wrap_one, wrap_two, hsub1]
        rw [h1run]
        simp only [Nat.add_sub_cancel, harg2, hsub2]
        rw [h2run]
        simp only [Nat.add_sub_cancel, fib_add_two]
      refine ⟨st2, ?_, ?_⟩
      · simp only [Simplest.fibFunction, runBody, hstmt1, hstmt2]
        simp
      · intro i hi
        rw [h2pres i (by omega), stackSet_listNth_ne (t + 1) i _ _ (by omega),
            h1pres i (by omega), stackSet_listNth_ne (t + 1) i _ _ (by omega)]

/-- `Simplest::fib(n)` computes the reference `fib` of the `uint32_t`
truncation of `n`. -/
theorem simplest_fib_eval (n : Nat) : Simplest.fib n = some (fib (wrap n)) := by
  obtain ⟨st', hrun, -⟩ :=
    simplest_runBody_spec (n + 1) (wrap n)
      (by have := wrap_le n; omega) (wrap_lt n) 0 [] 0
  have henv : listNth [] Simplest.fibEnv.funcs 0 = Simplest.fibFunction := rfl
  unfold Simplest.fib
  simp only [evalNode_succ, evalStep, Context.push, henv, Context.init]
  rw [hrun]
  simp

/-! ## Evaluation of the `SimpleFusion::fib` program -/

/-- Stage 2 analogue of `simplest_runBody_spec`: the fused body
computes the same frame effect. -/
theorem simpleFusion_runBody_spec :
    ∀ fuel m, m < fuel → m < u32Mod → ∀ (rv : Nat) (st : List Nat) (t : Nat),
    ∃ st' : List Nat,
      runBody (evalNode SimpleFusion.fibEnv fuel) SimpleFusion.fibFunction
          { stopForReturn := false, returnValue := rv,
            stack := stackSet st t m, stackTop := t + 1 } =
        some { stopForReturn := true, returnValue := fib m,
               stack := st', stackTop := t + 1 } ∧
      ∀ i, i ≤ t → listNth 0 st' i = listNth 0 (stackSet st t m) i := by
  intro fuel
  induction fuel with
  | zero => intro m hm; omega
  | succ f ih =>
    intro m hmf hmU rv st t
    have hargm : listNth 0 (stackSet st t m) t = m := stackSet_listNth_self t st m
    by_cases hm2 : m < 2
    · refine ⟨stackSet st t m, ?_, fun i _ => rfl⟩
      have hfib : fib m = m := fib_base hm2
      simp [runBody, SimpleFusion.fibFunction, evalNode_succ, evalStep, hargm,
            wrap_two, wless, hm2, hfib]
    · obtain ⟨k, rfl⟩ : ∃ k, m = k + 2 := ⟨m - 2, by omega⟩
      obtain ⟨st1, h1run, h1pres⟩ :=
        ih (k + 1) (by omega) (by omega) rv (stackSet st t (k + 2)) (t + 1)
      obtain ⟨st2, h2run, h2pres⟩ :=
        ih k (by omega) (by omega) (fib (k + 1)) st1 (t + 1)
      have hlt : ¬ (k + 2 < 2) := by omega
      have hsub1 : wsub (k + 2) 1 = k + 1 := by
        rw [wsub_of_le (by omega) hmU]; omega
      have hsub2 : wsub (k + 2) 2 = k := by
        rw [wsub_of_le (by omega) hmU]; omega
      have harg2 : listNth 0 st1 t = k + 2 := by
        rw [h1pres t (by omega),
            stackSet_listNth_ne (t + 1) t _ _ (by omega),
            stackSet_listNth_self t st (k + 2)]
      have henv : listNth [] SimpleFusion.fibEnv.funcs 0 = SimpleFusion.fibFunction := rfl
      have hstmt1 : evalNode SimpleFusion.fibEnv (f + 1)
          (.if_ (.lessConst .arg 2) (.ret .arg))
          { stopForReturn := false, returnValue := rv,
            stack := stackSet st t (k + 2), stackTop := t + 1 } =
          some (0, { stopForReturn := false, returnValue := rv,
                     stack := stackSet st t (k + 2), stackTop := t + 1 }) := by
        simp [evalNode_succ, evalStep, hargm, wrap_two, wless, hlt]
      have hstmt2 : evalNode SimpleFusion.fibEnv (f + 1)
          (.ret (.add (.call 0 (.subConst .arg 1))
                      (.call 0 (.subConst .arg 2))))
          { stopForReturn := false, returnValue := rv,
            stack := stackSet st t (k + 2), stackTop := t + 1 } =
          some (0, { stopForReturn := true, returnValue := fib (k + 2),
                     stack := st2, stackTop := t + 1 }) := by
        simp only [evalNode_succ, evalStep, Context.push, henv,
                   Nat.add_sub_cancel, hargm, wrap_one, wrap_two, hsub1]
        rw [h1run]
        simp only [Nat.add_sub_cancel, harg2, hsub2]
        rw [h2run]
        simp only [Nat.add_sub_cancel, fib_add_two]
      refine ⟨st2, ?_, ?_⟩
      · simp only [SimpleFusion.fibFunction, runBody, hstmt1, hstmt2]
        simp
      · intro i hi
        rw [h2pres i (by omega), stackSet_listNth_ne (t + 1) i _ _ (by omega),
            h1pres i (by omega), stackSet_listNth_ne (t + 1) i _ _ (by omega)]

/-- `SimpleFusion::fib(n)` computes the reference `fib` of the
`uint32_t` truncation of `n`. -/
theorem simpleFusion_fib_eval (n : Nat) :
    SimpleFusion.fib n = some (fib (wrap n)) := by
  obtain ⟨st', hrun, -⟩ :=
    simpleFusion_runBody_spec (n + 1) (wrap n)
      (by have := wrap_le n; omega) (wrap_lt n) 0 [] 0
  have henv : listNth [] SimpleFusion.fibEnv.funcs 0 = SimpleFusion.fibFunction := rfl
  unfold SimpleFusion.fib
  simp only [evalNode_succ, evalStep, Context.push, henv, Context.init]
  rw [hrun]
  simp

/-! ## Evaluation of the `BetterFusion::fib` program -/

/-- Stage 3 analogue of `simplest_runBody_spec`, going through the
`compute` fast path of the fused nodes. -/
theorem betterFusion_runBody_spec :
    ∀ fuel m, m < fuel → m < u32Mod → ∀ (rv : Nat) (st : List Nat) (t : Nat),
    ∃ st' : List Nat,
      runBody (evalNode BetterFusion.fibEnv fuel) BetterFusion.fibFunction
          { stopForReturn := false, returnValue := rv,
            stack := stackSet st t m, stackTop := t + 1 } =
        some { stopForReturn := true, returnValue := fib m,
               stack := st', stackTop := t + 1 } ∧
      ∀ i, i ≤ t → listNth 0 st' i = listNth 0 (stackSet st t m) i := by
  intro fuel
  induction fuel with
  | zero => intro m hm; omega
  | succ f ih =>
    intro m hmf hmU rv st t
    have hargm : listNth 0 (stackSet st t m) t = m := stackSet_listNth_self t st m
    by_cases hm2 : m < 2
    · refine ⟨stackSet st t m, ?_, fun i _ => rfl⟩
      have hfib : fib m = m := fib_base hm2
      simp [runBody, BetterFusion.fibFunction, evalNode_succ, evalStep,
            BetterFusion.LessArgConstNode.compute, BetterFusion.ArgNode.compute,
            BetterFusion.ConstNode.compute, hargm, wrap_two, wless, hm2, hfib]
    · obtain ⟨k, rfl⟩ : ∃ k, m = k + 2 := ⟨m - 2, by omega⟩
      obtain ⟨st1, h1run, h1pres⟩ :=
        ih (k + 1) (by omega) (by omega) rv (stackSet st t (k + 2)) (t + 1)
      obtain ⟨st2, h2run, h2pres⟩ :=
        ih k (by omega) (by omega) (fib (k + 1)) st1 (t + 1)
      have hlt : ¬ (k + 2 < 2) := by omega
      have hsub1 : wsub (k + 2) 1 = k + 1 := by
        rw [wsub_of_le (by omega) hmU]; omega
      have hsub2 : wsub (k + 2) 2 = k := by
        rw [wsub_of_le (by omega) hmU]; omega
      have harg2 : listNth 0 st1 t = k + 2 := by
        rw [h1pres t (by omega),
            stackSet_listNth_ne (t + 1) t _ _ (by omega),
            stackSet_listNth_self t st (k + 2)]
      have henv : listNth [] BetterFusion.fibEnv.funcs 0 = BetterFusion.fibFunction := rfl
      have hstmt1 : evalNode BetterFusion.fibEnv (f + 1)
          (.if_ (.lessArgConst 2) (.ret .arg))
          { stopForReturn := false, returnValue := rv,
            stack := stackSet st t (k + 2), stackTop := t + 1 } =
          some (0, { stopForReturn := false, returnValue := rv,
                     stack := stackSet st t (k + 2), stackTop := t + 1 }) := by
        simp [evalNode_succ, evalStep, BetterFusion.LessArgConstNode.compute,
              BetterFusion.ArgNode.compute, BetterFusion.ConstNode.compute,
              hargm, wrap_two, wless, hlt]
      have hstmt2 : evalNode BetterFusion.fibEnv (f + 1)
          (.ret (.add (.call 0 (.subArgConst 1))
                      (.call 0 (.subArgConst 2))))
          { stopForReturn := false, returnValue := rv,
            stack := stackSet st t (k + 2), stackTop := t + 1 } =
          some (0, { stopForReturn := true, returnValue := fib (k + 2),
                     stack := st2, stackTop := t + 1 }) := by
        simp only [evalNode_succ, evalStep, Context.push, henv,
                   BetterFusion.SubArgConstNode.compute,
                   BetterFusion.ArgNode.compute, BetterFusion.ConstNode.compute,
                   Nat.add_sub_cancel, hargm, wrap_one, wrap_two, hsub1]
        rw [h1run]
        simp only [Nat.add_sub_cancel, harg2, hsub2]
        rw [h2run]
        simp only [Nat.add_sub_cancel, fib_add_two]
      refine ⟨st2, ?_, ?_⟩
      · simp only [BetterFusion.fibFunction, runBody, hstmt1, hstmt2]
        simp
      · intro i hi
        rw [h2pres i (by omega), stackSet_listNth_ne (t + 1) i _ _ (by omega),
            h1pres i (by omega), stackSet_listNth_ne (t + 1) i _ _ (by omega)]

/-- `BetterFusion::fib(n)` computes the reference `fib` of the
`uint32_t` truncation of `n`. -/
theorem betterFusion_fib_eval (n : Nat) :
    BetterFusion.fib n = some (fib (wrap n)) := by
  obtain ⟨st', hrun, -⟩ :=
    betterFusion_runBody_spec (n + 1) (wrap n)
      (by have := wrap_le n; omega) (wrap_lt n) 0 [] 0
  have henv : listNth [] BetterFusion.fibEnv.funcs 0 = BetterFusion.fibFunction := rfl
  unfold BetterFusion.fib
  simp only [evalNode_succ, evalStep, Context.push, henv, Context.init]
  rw [hrun]
  simp

/-! ## Evaluation of the `SimplifyCalls::fib` program -/

/-- Stage 4 analogue: evaluating the single `IfElseNode` body with
argument `m` on top of the stack yields `fib m` directly as the node
value, leaving `stopForReturn` and `returnValue` untouched. -/
theorem simplifyCalls_body_spec :
    ∀ fuel m, m < fuel → m < u32Mod → ∀ (rv : Nat) (st : List Nat) (t : Nat),
    ∃ st' : List Nat,
      evalNode SimplifyCalls.fibEnv fuel SimplifyCalls.fibNode
          { stopForReturn := false, returnValue := rv,
            stack := stackSet st t m, stackTop := t + 1 } =
        some (fib m, { stopForReturn := false, returnValue := rv,
                       stack := st', stackTop := t + 1 }) ∧
      ∀ i, i ≤ t → listNth 0 st' i = listNth 0 (stackSet st t m) i := by
  intro fuel
  induction fuel with
  | zero => intro m hm; omega
  | succ f ih =>
    intro m hmf hmU rv st t
    have hargm : listNth 0 (stackSet st t m) t = m := stackSet_listNth_self t st m
    by_cases hm2 : m < 2
    · refine ⟨stackSet st t m, ?_, fun i _ => rfl⟩
      have hfib : fib m = m := fib_base hm2
      simp [evalNode_succ, SimplifyCalls.fibNode, evalStep,
            BetterFusion.LessArgConstNode.compute, BetterFusion.ArgNode.compute,
            BetterFusion.ConstNode.compute, hargm, wrap_two, wless, hm2, hfib]
    · obtain ⟨k, rfl⟩ : ∃ k, m = k + 2 := ⟨m - 2, by omega⟩
      obtain ⟨st1, h1, h1pres⟩ :=
        ih (k + 1) (by omega) (by omega) rv (stackSet st t (k + 2)) (t + 1)
      obtain ⟨st2, h2, h2pres⟩ :=
        ih k (by omega) (by omega) rv st1 (t + 1)
      have hlt : ¬ (k + 2 < 2) := by omega
      have hsub1 : wsub (k + 2) 1 = k + 1 := by
        rw [wsub_of_le (by omega) hmU]; omega
      have hsub2 : wsub (k + 2) 2 = k := by
        rw [wsub_of_le (by omega) hmU]; omega
      have harg2 : listNth 0 st1 t = k + 2 := by
        rw [h1pres t (by omega),
            stackSet_listNth_ne (t + 1) t _ _ (by omega),
            stackSet_listNth_self t st (k + 2)]
      have henv : listNth (Node.const 0) SimplifyCalls.fibEnv.anys 0 =
          Node.ifElse (.lessArgConst 2) .arg
            (.add (.callAny 0 (.subArgConst 1))
                  (.callAny 0 (.subArgConst 2))) := rfl
      simp only [SimplifyCalls.fibNode] at h1 h2
      refine ⟨st2, ?_, ?_⟩
      · simp [evalNode_succ, SimplifyCalls.fibNode, evalStep,
              BetterFusion.LessArgConstNode.compute,
              BetterFusion.SubArgConstNode.compute,
              BetterFusion.ArgNode.compute, BetterFusion.ConstNode.compute,
              Context.push, henv, hargm, wrap_one, wrap_two, wless, hsub1, hlt]
        rw [h1]
        simp only [Nat.add_sub_cancel, harg2, hsub2]
        rw [h2]
        simp only [Nat.add_sub_cancel, fib_add_two]
      · intro i hi
        rw [h2pres i (by omega), stackSet_listNth_ne (t + 1) i _ _ (by omega),
            h1pres i (by omega), stackSet_listNth_ne (t + 1) i _ _ (by omega)]

/-- `SimplifyCalls::fib(n)` computes the reference `fib` of the
`uint32_t` truncation of `n`. -/
theorem simplifyCalls_fib_eval (n : Nat) :
    SimplifyCalls.fib n = some (fib (wrap n)) := by
  obtain ⟨st', hrun, -⟩ :=
    simplifyCalls_body_spec (n + 1) (wrap n)
      (by have := wrap_le n; omega) (wrap_lt n) 0 [] 0
  have henv : listNth (Node.const 0) SimplifyCalls.fibEnv.anys 0 =
      SimplifyCalls.fibNode := rfl
  have hstep : SimplifyCalls.fib n =
      (evalStep SimplifyCalls.fibEnv (evalNode SimplifyCalls.fibEnv (n + 1))
        (.callAny 0 (.const n)) Context.init).map Prod.fst := rfl
  rw [hstep]
  simp only [evalStep, Context.push, henv, Context.init]
  rw [hrun]
  simp

/-! ## Frame discipline: `stackTop` is restored by every evaluation -/

/-- The statement loop never changes `stackTop` when each statement
evaluation preserves it. -/
theorem runBody_stackTop (recur : Node → Context → Option (Nat × Context))
    (hrec : ∀ e ctx r, recur e ctx = some r → r.2.stackTop = ctx.stackTop) :
    ∀ (l : List Node) (ctx ctx' : Context),
      runBody recur l ctx = some ctx' → ctx'.stackTop = ctx.stackTop := by
  intro l
  induction l with
  | nil =>
    intro ctx ctx' h
    simp only [runBody, Option.some.injEq] at h
    rw [← h]
  | cons s rest ih =>
    intro ctx ctx' h
    simp only [runBody] at h
    cases hs : recur s ctx with
    | none => simp [hs] at h
    | some r =>
      obtain ⟨v, c1⟩ := r
      simp only [hs] at h
      have h1 : c1.stackTop = ctx.stackTop := hrec s ctx (v, c1) hs
      by_cases hb : c1.stopForReturn
      · simp only [hb, if_true, Option.some.injEq] at h
        rw [← h, h1]
      · simp only [hb, if_false, Bool.false_eq_true] at h
        rw [ih c1 ctx' h, h1]

/-- One dispatch level of `eval` preserves `stackTop` (each call pushes
one slot and pops exactly one). -/
theorem evalStep_stackTop (env : Env)
    (recur : Node → Context → Option (Nat × Context))
    (hrec : ∀ e ctx r, recur e ctx = some r → r.2.stackTop = ctx.stackTop) :
    ∀ (e : Node) (ctx : Context) (r : Nat × Context),
      evalStep env recur e ctx = some r → r.2.stackTop = ctx.stackTop := by
  intro e
  induction e with
  | const v =>
    intro ctx r h
    simp only [evalStep, Option.some.injEq] at h
    rw [← h]
  | add l r ihl ihr =>
    intro ctx p h
    simp only [evalStep] at h
    cases h1 : evalStep env recur l ctx with
    | none => simp [h1] at h
    | some a =>
      obtain ⟨av, c1⟩ := a
      simp only [h1] at h
      cases h2 : evalStep env recur r c1 with
      | none => simp [h2] at h
      | some b =>
        obtain ⟨bv, c2⟩ := b
        simp only [h2, Option.some.injEq] at h
        rw [← h]
        rw [ihr c1 (bv, c2) h2, ihl ctx (av, c1) h1]
  | sub l r ihl ihr =>
    intro ctx p h
    simp only [evalStep] at h
    cases h1 : evalStep env recur l ctx with
    | none => simp [h1] at h
    | some a =>
      obtain ⟨av, c1⟩ := a
      simp only [h1] at h
      cases h2 : evalStep env recur r c1 with
      | none => simp [h2] at h
      | some b =>
        obtain ⟨bv, c2⟩ := b
        simp only [h2, Option.some.injEq] at h
        rw [← h]
        rw [ihr c1 (bv, c2) h2, ihl ctx (av, c1) h1]
  | less l r ihl ihr =>
    intro ctx p h
    simp only [evalStep] at h
    cases h1 : evalStep env recur l ctx with
    | none => simp [h1] at h
    | some a =>
      obtain ⟨av, c1⟩ := a
      simp only [h1] at h
      cases h2 : evalStep env recur r c1 with
      | none => simp [h2] at h
      | some b =>
        obtain ⟨bv, c2⟩ := b
        simp only [h2, Option.some.injEq] at h
        rw [← h]
        rw [ihr c1 (bv, c2) h2, ihl ctx (av, c1) h1]
  | if_ cond body ihc ihb =>
    intro ctx p h
    simp only [evalStep] at h
    cases h1 : evalStep env recur cond ctx with
    | none => simp [h1] at h
    | some a =>
      obtain ⟨av, c1⟩ := a
      simp only [h1] at h
      by_cases hv : av ≠ 0
      · rw [if_pos hv] at h
        cases h2 : evalStep env recur body c1 with
        | none => simp [h2] at h
        | some b =>
          obtain ⟨bv, c2⟩ := b
          simp only [h2, Option.some.injEq] at h
          rw [← h]
          rw [ihb c1 (bv, c2) h2, ihc ctx (av, c1) h1]
      · rw [if_neg hv] at h
        simp only [Option.some.injEq] at h
        rw [← h]
        exact ihc ctx (av, c1) h1
  | call fn a iha =>
    intro ctx p h
    simp only [evalStep] at h
    cases h1 : evalStep env recur a ctx with
    | none => simp [h1] at h
    | some av =>
      obtain ⟨v, c1⟩ := av
      simp only [h1] at h
      cases h2 : runBody recur (listNth [] env.funcs fn) (c1.push v) with
      | none => simp [h2] at h
      | some c2 =>
        simp only [h2, Option.some.injEq] at h
        have hb : c2.stackTop = (c1.push v).stackTop :=
          runBody_stackTop recur hrec _ _ _ h2
        have ha : c1.stackTop = ctx.stackTop := iha ctx (v, c1) h1
        rw [← h]
        simp only [Context.push] at hb
        simp only [hb, ha]
        omega
  | ret e ihe =>
    intro ctx p h
    simp only [evalStep] at h
    cases h1 : evalStep env recur e ctx with
    | none => simp [h1] at h
    | some a =>
      obtain ⟨av, c1⟩ := a
      simp only [h1, Option.some.injEq] at h
      rw [← h]
      exact ihe ctx (av, c1) h1
  | arg =>
    intro ctx p h
    simp only [evalStep, Option.some.injEq] at h
    rw [← h]
  | lessConst l c ihl =>
    intro ctx p h
    simp only [evalStep] at h
    cases h1 : evalStep env recur l ctx with
    | none => simp [h1] at h
    | some a =>
      obtain ⟨av, c1⟩ := a
      simp only [h1, Option.some.injEq] at h
      rw [← h]
      exact ihl ctx (av, c1) h1
  | subConst l c ihl =>
    intro ctx p h
    simp only [evalStep] at h
    cases h1 : evalStep env recur l ctx with
    | none => simp [h1] at h
    | some a =>
      obtain ⟨av, c1⟩ := a
      simp only [h1, Option.some.injEq] at h
      rw [← h]
      exact ihl ctx (av, c1) h1
  | lessArgConst c =>
    intro ctx p h
    simp only [evalStep, Option.some.injEq] at h
    rw [← h]
  | subArgConst c =>
    intro ctx p h
    simp only [evalStep, Option.some.injEq] at h
    rw [← h]
  | callAny fn a iha =>
    intro ctx p h
    simp only [evalStep] at h
    cases h1 : evalStep env recur a ctx with
    | none => simp [h1] at h
    | some av =>
      obtain ⟨v, c1⟩ := av
      simp only [h1] at h
      cases h2 : recur (listNth (.const 0) env.anys fn) (c1.push v) with
      | none => simp [h2] at h
      | some rr =>
        obtain ⟨rv, c2⟩ := rr
        simp only [h2, Option.some.injEq] at h
        have hb : c2.stackTop = (c1.push v).stackTop :=
          hrec _ _ (rv, c2) h2
        have ha : c1.stackTop = ctx.stackTop := iha ctx (v, c1) h1
        rw [← h]
        simp only [Context.push] at hb
        simp only [hb, ha]
        omega
  | ifElse cond tb eb ihc iht ihe =>
    intro ctx p h
    simp only [evalStep] at h
    cases h1 : evalStep env recur cond ctx with
    | none => simp [h1] at h
    | some a =>
      obtain ⟨av, c1⟩ := a
      simp only [h1] at h
      have hc : c1.stackTop = ctx.stackTop := ihc ctx (av, c1) h1
      by_cases hv : av ≠ 0
      · rw [if_pos hv] at h
        rw [iht c1 p h, hc]
      · rw [if_neg hv] at h
        rw [ihe c1 p h, hc]

/-- Every completed evaluation restores `stackTop` to its entry value:
no frames are leaked at any fuel. -/
theorem evalNode_stackTop (env : Env) :
    ∀ (fuel : Nat) (e : Node) (ctx : Context) (r : Nat × Context),
      evalNode env fuel e ctx = some r → r.2.stackTop = ctx.stackTop := by
  intro fuel
  induction fuel with
  | zero => intro e ctx r h; simp [evalNode] at h
  | succ f ih =>
    intro e ctx r h
    exact evalStep_stackTop env (evalNode env f) ih e ctx r h

/-! ## The call protocol: result, signal clearing, frame restoration -/

/-- What `Simplest::CallNode::eval` (also used by `SimpleFusion` and
`BetterFusion`) guarantees on completion: the returned value is exactly
the `returnValue` left in the context, the return signal has been
cleared, and `stackTop` is back at its entry value. -/
theorem evalNode_call_inv (env : Env) (fuel : Nat) (fn : Nat) (a : Node)
    (ctx : Context) (v : Nat) (ctx' : Context)
    (h : evalNode env fuel (.call fn a) ctx = some (v, ctx')) :
    ctx'.returnValue = v ∧ ctx'.stopForReturn = false ∧
      ctx'.stackTop = ctx.stackTop := by
  cases fuel with
  | zero => simp [evalNode] at h
  | succ f =>
    simp only [evalNode, evalStep] at h
    cases h1 : evalStep env (evalNode env f) a ctx with
    | none => simp [h1] at h
    | some av =>
      obtain ⟨w, c1⟩ := av
      simp only [h1] at h
      cases h2 : runBody (evalNode env f) (listNth [] env.funcs fn)
          (c1.push w) with
      | none => simp [h2] at h
      | some c2 =>
        simp only [h2, Option.some.injEq, Prod.mk.injEq] at h
        obtain ⟨hv, hctx⟩ := h
        have htop2 : c2.stackTop = (c1.push w).stackTop :=
          runBody_stackTop (evalNode env f) (evalNode_stackTop env f) _ _ _ h2
        have htop1 : c1.stackTop = ctx.stackTop :=
          evalStep_stackTop env (evalNode env f) (evalNode_stackTop env f)
            a ctx (w, c1) h1
        simp only [Context.push] at htop2
        rw [← hctx, ← hv]
        refine ⟨rfl, rfl, ?_⟩
        simp only [htop2, htop1]
        omega

/-- What `SimplifyCalls::CallAnyNode::eval` guarantees on completion:
the return signal is cleared (defensively) and `stackTop` is restored.
Unlike `CallNode`, the result is the callee node's own value. -/
theorem evalNode_callAny_inv (env : Env) (fuel : Nat) (fn : Nat) (a : Node)
    (ctx : Context) (v : Nat) (ctx' : Context)
    (h : evalNode env fuel (.callAny fn a) ctx = some (v, ctx')) :
    ctx'.stopForReturn = false ∧ ctx'.stackTop = ctx.stackTop := by
  cases fuel with
  | zero => simp [evalNode] at h
  | succ f =>
    simp only [evalNode, evalStep] at h
    cases h1 : evalStep env (evalNode env f) a ctx with
    | none => simp [h1] at h
    | some av =>
      obtain ⟨w, c1⟩ := av
      simp only [h1] at h
      cases h2 : evalNode env f (listNth (.const 0) env.anys fn)
          (c1.push w) with
      | none => simp [h2] at h
      | some rr =>
        obtain ⟨rv, c2⟩ := rr
        simp only [h2, Option.some.injEq, Prod.mk.injEq] at h
        obtain ⟨hv, hctx⟩ := h
        have htop2 : c2.stackTop = (c1.push w).stackTop :=
          evalNode_stackTop env f _ _ (rv, c2) h2
        have htop1 : c1.stackTop = ctx.stackTop :=
          evalStep_stackTop env (evalNode env f) (evalNode_stackTop env f)
            a ctx (w, c1) h1
        simp only [Context.push] at htop2
        rw [← hctx]
        refine ⟨rfl, ?_⟩
        simp only [htop2, htop1]
        omega

/-! ## Evaluations free of `ReturnNode` never touch `returnValue` -/

theorem listNth_all {α : Type} (p : α → Bool) (d : α) (hd : p d = true) :
    ∀ (l : List α) (i : Nat), l.all p = true → p (listNth d l i) = true := by
  intro l
  induction l with
  | nil => intro i _; exact hd
  | cons x rest ih =>
    intro i h
    simp only [List.all_cons, Bool.and_eq_true] at h
    cases i with
    | zero => exact h.1
    | succ j => exact ih j h.2

theorem runBody_returnValue (recur : Node → Context → Option (Nat × Context))
    (hrec : ∀ e ctx r, e.hasRet = false → recur e ctx = some r →
      r.2.returnValue = ctx.returnValue) :
    ∀ (l : List Node), l.all (fun s => !s.hasRet) = true →
    ∀ (ctx c' : Context),
      runBody recur l ctx = some c' → c'.returnValue = ctx.returnValue := by
  intro l
  induction l with
  | nil =>
    intro _ ctx c' h
    simp only [runBody, Option.some.injEq] at h
    rw [← h]
  | cons s rest ih =>
    intro hall ctx c' h
    simp only [List.all_cons, Bool.and_eq_true, Bool.not_eq_true'] at hall
    simp only [runBody] at h
    cases hs : recur s ctx with
    | none => simp [hs] at h
    | some r =>
      obtain ⟨v, c1⟩ := r
      simp only [hs] at h
      have h1 : c1.returnValue = ctx.returnValue := hrec s ctx (v, c1) hall.1 hs
      by_cases hb : c1.stopForReturn
      · simp only [hb, if_true, Option.some.injEq] at h
        rw [← h, h1]
      · simp only [hb, if_false, Bool.false_eq_true] at h
        rw [ih (by simp [hall.2]) c1 c' h, h1]

/-- One dispatch level: a `ReturnNode`-free evaluation (over a
`ReturnNode`-free environment) leaves `returnValue` unchanged. -/
theorem evalStep_returnValue (env : Env) (henv : env.noRet = true)
    (recur : Node → Context → Option (Nat × Context))
    (hrec : ∀ e ctx r, e.hasRet = false → recur e ctx = some r →
      r.2.returnValue = ctx.returnValue) :
    ∀ (e : Node) (ctx : Context) (r : Nat × Context), e.hasRet = false →
      evalStep env recur e ctx = some r → r.2.returnValue = ctx.returnValue := by
  have hfuncs : ∀ fn, (listNth [] env.funcs fn).all (fun s => !s.hasRet) = true := by
    intro fn
    have h1 : env.funcs.all (fun body => body.all (fun s => !s.hasRet)) = true := by
      simp only [Env.noRet, Bool.and_eq_true] at henv
      exact henv.1
    exact listNth_all (fun body => body.all (fun s => !s.hasRet)) [] rfl
      env.funcs fn h1
  have hanys : ∀ fn, (listNth (Node.const 0) env.anys fn).hasRet = false := by
    intro fn
    have h2 : env.anys.all (fun s => !s.hasRet) = true := by
      simp only [Env.noRet, Bool.and_eq_true] at henv
      exact henv.2
    have h3 := listNth_all (fun s : Node => !s.hasRet) (Node.const 0) rfl
      env.anys fn h2
    simpa using h3
  intro e
  induction e with
  | const v =>
    intro ctx r _ h
    simp only [evalStep, Option.some.injEq] at h
    rw [← h]
  | add l r ihl ihr =>
    intro ctx p hr h
    simp only [Node.hasRet, Bool.or_eq_false_iff] at hr
    simp only [evalStep] at h
    cases h1 : evalStep env recur l ctx with
    | none => simp [h1] at h
    | some a =>
      obtain ⟨av, c1⟩ := a
      simp only [h1] at h
      cases h2 : evalStep env recur r c1 with
      | none => simp [h2] at h
      | some b =>
        obtain ⟨bv, c2⟩ := b
        simp only [h2, Option.some.injEq] at h
        rw [← h]
        rw [ihr c1 (bv, c2) hr.2 h2, ihl ctx (av, c1) hr.1 h1]
  | sub l r ihl ihr =>
    intro ctx p hr h
    simp only [Node.hasRet, Bool.or_eq_false_iff] at hr
    simp only [evalStep] at h
    cases h1 : evalStep env recur l ctx with
    | none => simp [h1] at h
    | some a =>
      obtain ⟨av, c1⟩ := a
      simp only [h1] at h
      cases h2 : evalStep env recur r c1 with
      | none => simp [h2] at h
      | some b =>
        obtain ⟨bv, c2⟩ := b
        simp only [h2, Option.some.injEq] at h
        rw [← h]
        rw [ihr c1 (bv, c2) hr.2 h2, ihl ctx (av, c1) hr.1 h1]
  | less l r ihl ihr =>
    intro ctx p hr h
    simp only [Node.hasRet, Bool.or_eq_false_iff] at hr
    simp only [evalStep] at h
    cases h1 : evalStep env recur l ctx with
    | none => simp [h1] at h
    | some a =>
      obtain ⟨av, c1⟩ := a
      simp only [h1] at h
      cases h2 : evalStep env recur r c1 with
      | none => simp [h2] at h
      | some b =>
        obtain ⟨bv, c2⟩ := b
        simp only [h2, Option.some.injEq] at h
        rw [← h]
        rw [ihr c1 (bv, c2) hr.2 h2, ihl ctx (av, c1) hr.1 h1]
  | if_ cond body ihc ihb =>
    intro ctx p hr h
    simp only [Node.hasRet, Bool.or_eq_false_iff] at hr
    simp only [evalStep] at h
    cases h1 : evalStep env recur cond ctx with
    | none => simp [h1] at h
    | some a =>
      obtain ⟨av, c1⟩ := a
      simp only [h1] at h
      by_cases hv : av ≠ 0
      · rw [if_pos hv] at h
        cases h2 : evalStep env recur body c1 with
        | none => simp [h2] at h
        | some b =>
          obtain ⟨bv, c2⟩ := b
          simp only [h2, Option.some.injEq] at h
          rw [← h]
          rw [ihb c1 (bv, c2) hr.2 h2, ihc ctx (av, c1) hr.1 h1]
      · rw [if_neg hv] at h
        simp only [Option.some.injEq] at h
        rw [← h]
        exact ihc ctx (av, c1) hr.1 h1
  | call fn a iha =>
    intro ctx p hr h
    simp only [Node.hasRet] at hr
    simp only [evalStep] at h
    cases h1 : evalStep env recur a ctx with
    | none => simp [h1] at h
    | some av =>
      obtain ⟨w, c1⟩ := av
      simp only [h1] at h
      cases h2 : runBody recur (listNth [] env.funcs fn) (c1.push w) with
      | none => simp [h2] at h
      | some c2 =>
        simp only [h2, Option.some.injEq] at h
        rw [← h]
        have hb : c2.returnValue = (c1.push w).returnValue :=
          runBody_returnValue recur hrec _ (hfuncs fn) _ _ h2
        simp only [Context.push] at hb
        simp only [hb]
        exact iha ctx (w, c1) hr h1
  | ret e ihe =>
    intro ctx p hr h
    simp only [Node.hasRet] at hr
    cases hr
  | arg =>
    intro ctx p _ h
    simp only [evalStep, Option.some.injEq] at h
    rw [← h]
  | lessConst l c ihl =>
    intro ctx p hr h
    simp only [Node.hasRet] at hr
    simp only [evalStep] at h
    cases h1 : evalStep env recur l ctx with
    | none => simp [h1] at h
    | some a =>
      obtain ⟨av, c1⟩ := a
      simp only [h1, Option.some.injEq] at h
      rw [← h]
      exact ihl ctx (av, c1) hr h1
  | subConst l c ihl =>
    intro ctx p hr h
    simp only [Node.hasRet] at hr
    simp only [evalStep] at h
    cases h1 : evalStep env recur l ctx with
    | none => simp [h1] at h
    | some a =>
      obtain ⟨av, c1⟩ := a
      simp only [h1, Option.some.injEq] at h
      rw [← h]
      exact ihl ctx (av, c1) hr h1
  | lessArgConst c =>
    intro ctx p _ h
    simp only [evalStep, Option.some.injEq] at h
    rw [← h]
  | subArgConst c =>
    intro ctx p _ h
    simp only [evalStep, Option.some.injEq] at h
    rw [← h]
  | callAny fn a iha =>
    intro ctx p hr h
    simp only [Node.hasRet] at hr
    simp only [evalStep] at h
    cases h1 : evalStep env recur a ctx with
    | none => simp [h1] at h
    | some av =>
      obtain ⟨w, c1⟩ := av
      simp only [h1] at h
      cases h2 : recur (listNth (.const 0) env.anys fn) (c1.push w) with
      | none => simp [h2] at h
      | some rr =>
        obtain ⟨rv, c2⟩ := rr
        simp only [h2, Option.some.injEq] at h
        rw [← h]
        have hb : c2.returnValue = (c1.push w).returnValue :=
          hrec _ _ (rv, c2) (hanys fn) h2
        simp only [Context.push] at hb
        simp only [hb]
        exact iha ctx (w, c1) hr h1
  | ifElse cond tb eb ihc iht ihe =>
    intro ctx p hr h
    simp only [Node.hasRet, Bool.or_eq_false_iff] at hr
    simp only [evalStep] at h
    cases h1 : evalStep env recur cond ctx with
    | none => simp [h1] at h
    | some a =>
      obtain ⟨av, c1⟩ := a
      simp only [h1] at h
      have hc : c1.returnValue = ctx.returnValue := ihc ctx (av, c1) hr.1.1 h1
      by_cases hv : av ≠ 0
      · rw [if_pos hv] at h
        rw [iht c1 p hr.1.2 h, hc]
      · rw [if_neg hv] at h
        rw [ihe c1 p hr.2 h, hc]

/-- A `ReturnNode`-free evaluation over a `ReturnNode`-free environment
leaves `returnValue` unchanged, at any fuel. -/
theorem evalNode_returnValue (env : Env) (henv : env.noRet = true) :
    ∀ (fuel : Nat) (e : Node) (ctx : Context) (r : Nat × Context),
      e.hasRet = false → evalNode env fuel e ctx = some r →
      r.2.returnValue = ctx.returnValue := by
  intro fuel
  induction fuel with
  | zero => intro e ctx r _ h; simp [evalNode] at h
  | succ f ih =>
    intro e ctx r hr h
    exact evalStep_returnValue env henv (evalNode env f) ih e ctx r hr h

/-! ## Claim theorems -/

/-- C1: for every `uint32_t` argument `n` (every `n < 2^32`, covering
the representative range 0..30), the four stage evaluators
`Simplest::fib`, `SimpleFusion::fib`, `BetterFusion::fib`,
`SimplifyCalls::fib` and the plain recursive reference `fib` all
produce identical results. -/
theorem c1_cross_stage_equiv (n : Nat) (hn : n < u32Mod) :
    Simplest.fib n = some (fib n) ∧ SimpleFusion.fib n = some (fib n) ∧
    BetterFusion.fib n = some (fib n) ∧ SimplifyCalls.fib n = some (fib n) := by
  have hw : wrap n = n := wrap_eq_of_lt hn
  exact ⟨by rw [simplest_fib_eval, hw], by rw [simpleFusion_fib_eval, hw],
         by rw [betterFusion_fib_eval, hw], by rw [simplifyCalls_fib_eval, hw]⟩

theorem c1_cross_stage_equiv_witness :
    (10 : Nat) < u32Mod ∧
    (Simplest.fib 10 = some (fib 10) ∧ SimpleFusion.fib 10 = some (fib 10) ∧
     BetterFusion.fib 10 = some (fib 10) ∧
     SimplifyCalls.fib 10 = some (fib 10)) :=
  ⟨by decide, c1_cross_stage_equiv 10 (by decide)⟩

/-- C2 counterexample: a call whose body (`[ 1 ]`, function index 1 of
`retFiveEnv`) fires no `Return` does not yield 0: after an earlier call
has set `returnValue = 5`, it yields that stale 5. -/
theorem c2_counterexample :
    evalNode retFiveEnv 2 (.call 0 (.const 0)) Context.init =
      some (5, { stopForReturn := false, returnValue := 5,
                 stack := [0], stackTop := 0 }) ∧
    (listNth [] retFiveEnv.funcs 1).all (fun s => !s.hasRet) = true ∧
    evalNode retFiveEnv 2 (.call 1 (.const 0))
        { stopForReturn := false, returnValue := 5,
          stack := [0], stackTop := 0 } =
      some (5, { stopForReturn := false, returnValue := 5,
                 stack := [0], stackTop := 0 }) ∧
    (5 : Nat) ≠ 0 :=
  ⟨by decide, by decide, by decide, by decide⟩

/-- C2 (amended): the call's result is the `returnValue` standing in
the context when the body finishes — set by whichever `Return` fired
last during the body, or inherited; when no `Return` exists anywhere in
the environment or the argument, the call returns the `returnValue` the
context already held, which is 0 only for a context in which no
`Return` has ever fired. -/
theorem c2_call_result (env : Env) (fuel : Nat) (fn : Nat) (a : Node)
    (ctx : Context) (v : Nat) (ctx' : Context)
    (h : evalNode env fuel (.call fn a) ctx = some (v, ctx')) :
    v = ctx'.returnValue ∧
    (env.noRet = true → a.hasRet = false → v = ctx.returnValue) := by
  constructor
  · exact (evalNode_call_inv env fuel fn a ctx v ctx' h).1.symm
  · intro henv ha
    cases fuel with
    | zero => simp [evalNode] at h
    | succ f =>
      simp only [evalNode, evalStep] at h
      cases h1 : evalStep env (evalNode env f) a ctx with
      | none => simp [h1] at h
      | some av =>
        obtain ⟨w, c1⟩ := av
        simp only [h1] at h
        cases h2 : runBody (evalNode env f) (listNth [] env.funcs fn)
            (c1.push w) with
        | none => simp [h2] at h
        | some c2 =>
          simp only [h2, Option.some.injEq, Prod.mk.injEq] at h
          obtain ⟨hv, hctx⟩ := h
          have hstmts : (listNth [] env.funcs fn).all
              (fun s => !s.hasRet) = true := by
            have hfn : env.funcs.all
                (fun body => body.all (fun s => !s.hasRet)) = true := by
              simp only [Env.noRet, Bool.and_eq_true] at henv
              exact henv.1
            exact listNth_all
              (fun body => body.all (fun s => !s.hasRet)) [] rfl
              env.funcs fn hfn
          have hb : c2.returnValue = (c1.push w).returnValue :=
            runBody_returnValue (evalNode env f)
              (fun e c r he hh => evalNode_returnValue env henv f e c r he hh)
              _ hstmts _ _ h2
          have ha1 : c1.returnValue = ctx.returnValue :=
            evalStep_returnValue env henv (evalNode env f)
              (fun e c r he hh => evalNode_returnValue env henv f e c r he hh)
              a ctx (w, c1) ha h1
          rw [← hv, hb]
          simp only [Context.push]
          rw [ha1]

theorem c2_call_result_witness :
    (evalNode noRetEnv 2 (.call 0 (.const 3))
        { stopForReturn := false, returnValue := 7,
          stack := [], stackTop := 0 } =
      some (7, { stopForReturn := false, returnValue := 7,
                 stack := [3], stackTop := 0 })) ∧
    (7 = ({ stopForReturn := false, returnValue := 7,
            stack := [3], stackTop := 0 } : Context).returnValue ∧
     (noRetEnv.noRet = true → (Node.const 3).hasRet = false →
       7 = ({ stopForReturn := false, returnValue := 7,
              stack := [], stackTop := 0 } : Context).returnValue)) :=
  ⟨by decide, c2_call_result noRetEnv 2 0 (.const 3) _ 7 _ (by decide)⟩

/-- C3: every fused node evaluates identically to the unfused
composition of `Less`/`Sub` over `Arg`/`Const` children, in every
environment, at every fuel, in every context and for every constant. -/
theorem c3_fusion_transparent (env : Env) (fuel : Nat) (l : Node) (c : Nat)
    (ctx : Context) :
    evalNode env fuel (.lessConst l c) ctx =
      evalNode env fuel (.less l (.const c)) ctx ∧
    evalNode env fuel (.subConst l c) ctx =
      evalNode env fuel (.sub l (.const c)) ctx ∧
    evalNode env fuel (.lessArgConst c) ctx =
      evalNode env fuel (.less .arg (.const c)) ctx ∧
    evalNode env fuel (.subArgConst c) ctx =
      evalNode env fuel (.sub .arg (.const c)) ctx := by
  cases fuel with
  | zero => exact ⟨rfl, rfl, rfl, rfl⟩
  | succ f =>
    refine ⟨?_, ?_, rfl, rfl⟩
    · simp only [evalNode, evalStep]
    · simp only [evalNode, evalStep]

/-- C4: in `BetterFusion`, for the node kinds with both entry points
(`ConstNode`, `ArgNode`, `LessArgConstNode`, `SubArgConstNode`) the
polymorphic `eval` entry point returns exactly the `compute` value and
leaves the context unchanged, in every environment, under every
recursive evaluator, in every context; and Stage 3 evaluation matches
Stage 1 and Stage 2 bit-for-bit on the Fibonacci program. -/
theorem c4_eval_compute_equiv :
    (∀ (env : Env) (recur : Node → Context → Option (Nat × Context))
       (v : Nat) (ctx : Context),
      evalStep env recur (.const v) ctx =
        some (BetterFusion.ConstNode.compute v ctx, ctx)) ∧
    (∀ (env : Env) (recur : Node → Context → Option (Nat × Context))
       (ctx : Context),
      evalStep env recur .arg ctx =
        some (BetterFusion.ArgNode.compute ctx, ctx)) ∧
    (∀ (env : Env) (recur : Node → Context → Option (Nat × Context))
       (c : Nat) (ctx : Context),
      evalStep env recur (.lessArgConst c) ctx =
        some (BetterFusion.LessArgConstNode.compute c ctx, ctx)) ∧
    (∀ (env : Env) (recur : Node → Context → Option (Nat × Context))
       (c : Nat) (ctx : Context),
      evalStep env recur (.subArgConst c) ctx =
        some (BetterFusion.SubArgConstNode.compute c ctx, ctx)) ∧
    (∀ n : Nat, BetterFusion.fib n = Simplest.fib n ∧
      BetterFusion.fib n = SimpleFusion.fib n) := by
  refine ⟨fun _ _ _ _ => rfl, fun _ _ _ => rfl, fun _ _ _ _ => rfl,
          fun _ _ _ _ => rfl, fun n => ?_⟩
  rw [betterFusion_fib_eval, simplest_fib_eval, simpleFusion_fib_eval]
  exact ⟨rfl, rfl⟩

set_option maxRecDepth 100000 in
/-- C5: the code contains no overflow check at all.  With the argument
stack already full (`stackTop = stackCapacity = 4096`, the allocation
size of `new uint32_t[4096]`), evaluating a further call does not fail
with any error: the push writes one slot past the array (undefined
behavior in C++) and evaluation returns an ordinary numeric result. -/
theorem c5_overflow_no_error :
    fullCtx.stackTop = stackCapacity ∧
    (evalNode overflowEnv 2 (.call 0 (.const 7)) fullCtx).map Prod.fst =
      some 7 :=
  ⟨rfl, by decide⟩

/-- C6: every completed evaluation leaves `stackTop` exactly where it
started — each call pushes one frame on entry and pops exactly one on
exit, so a top-level evaluation beginning at `stackTop = 0` ends at 0
and no frames are leaked. -/
theorem c6_stack_balance (env : Env) (fuel : Nat) (e : Node) (ctx : Context)
    (v : Nat) (ctx' : Context)
    (h : evalNode env fuel e ctx = some (v, ctx')) :
    ctx'.stackTop = ctx.stackTop :=
  evalNode_stackTop env fuel e ctx (v, ctx') h

theorem c6_stack_balance_witness :
    (evalNode mixedEnv 2 (.call 0 (.const 6)) Context.init =
      some (6, { stopForReturn := false, returnValue := 6,
                 stack := [6], stackTop := 0 })) ∧
    ({ stopForReturn := false, returnValue := 6,
       stack := [6], stackTop := 0 } : Context).stackTop =
      Context.init.stackTop :=
  ⟨by decide, c6_stack_balance mixedEnv 2 (.call 0 (.const 6)) Context.init 6
    { stopForReturn := false, returnValue := 6, stack := [6], stackTop := 0 }
    (by decide)⟩

/-- C7: the call protocol clears `returnSignal` after every completed
call (`CallNode` and `CallAnyNode` alike), so a `Return` that fired
inside one call frame never suppresses statements of the caller's frame
or of a sibling call evaluated afterwards. -/
theorem c7_return_signal_cleared (env : Env) (fuel : Nat) (fn g : Nat)
    (a b : Node) (ctx : Context) :
    (∀ (v : Nat) (ctx' : Context),
      evalNode env fuel (.call fn a) ctx = some (v, ctx') →
      ctx'.stopForReturn = false) ∧
    (∀ (v : Nat) (ctx' : Context),
      evalNode env fuel (.callAny g b) ctx = some (v, ctx') →
      ctx'.stopForReturn = false) :=
  ⟨fun v ctx' h => (evalNode_call_inv env fuel fn a ctx v ctx' h).2.1,
   fun v ctx' h => (evalNode_callAny_inv env fuel g b ctx v ctx' h).1⟩

theorem c7_return_signal_cleared_witness :
    (evalNode mixedEnv 2 (.call 0 (.const 4)) Context.init =
      some (4, { stopForReturn := false, returnValue := 4,
                 stack := [4], stackTop := 0 })) ∧
    ({ stopForReturn := false, returnValue := 4,
       stack := [4], stackTop := 0 } : Context).stopForReturn = false ∧
    (evalNode mixedEnv 2 (.callAny 0 (.const 9)) Context.init =
      some (9, { stopForReturn := false, returnValue := 0,
                 stack := [9], stackTop := 0 })) ∧
    ({ stopForReturn := false, returnValue := 0,
       stack := [9], stackTop := 0 } : Context).stopForReturn = false :=
  ⟨by decide,
   (c7_return_signal_cleared mixedEnv 2 0 0 (.const 4) (.const 9)
     Context.init).1 4 _ (by decide),
   by decide,
   (c7_return_signal_cleared mixedEnv 2 0 0 (.const 4) (.const 9)
     Context.init).2 9 _ (by decide)⟩

/-- C8: each stage returns 0 for argument 0, 1 for argument 1, 55 for
argument 10 and 6765 for argument 20, matching the plain recursive
reference `fib`. -/
theorem c8_fib_values :
    Simplest.fib 0 = some 0 ∧ Simplest.fib 1 = some 1 ∧
    Simplest.fib 10 = some 55 ∧ Simplest.fib 20 = some 6765 ∧
    SimpleFusion.fib 0 = some 0 ∧ SimpleFusion.fib 1 = some 1 ∧
    SimpleFusion.fib 10 = some 55 ∧ SimpleFusion.fib 20 = some 6765 ∧
    BetterFusion.fib 0 = some 0 ∧ BetterFusion.fib 1 = some 1 ∧
    BetterFusion.fib 10 = some 55 ∧ BetterFusion.fib 20 = some 6765 ∧
    SimplifyCalls.fib 0 = some 0 ∧ SimplifyCalls.fib 1 = some 1 ∧
    SimplifyCalls.fib 10 = some 55 ∧ SimplifyCalls.fib 20 = some 6765 ∧
    fib 0 = 0 ∧ fib 1 = 1 ∧ fib 10 = 55 ∧ fib 20 = 6765 := by
  have h10 : fib 10 = 55 := by decide
  have h20 : fib 20 = 6765 := by decide
  simp [simplest_fib_eval, simpleFusion_fib_eval, betterFusion_fib_eval,
        simplifyCalls_fib_eval, h10, h20, wrap_zero, wrap_one,
        show wrap 10 = 10 from rfl, show wrap 20 = 20 from rfl,
        show fib 0 = 0 from rfl, show fib 1 = 1 from rfl]

/-- C9: `Add`, `Sub` and the fused `Sub` variants (`SubConst` and
`SubArgConst`) combine operands with unsigned 32-bit wraparound
arithmetic and never fail once their operands evaluate: `wadd`/`wsub`
are congruent to `a + b` and `a - b` modulo `2^32`, deterministically. -/
theorem c9_wraparound (env : Env) (f : Nat) (l r : Node)
    (ctx c1 c2 : Context) (a b : Nat)
    (hl : evalNode env (f + 1) l ctx = some (a, c1))
    (hr : evalNode env (f + 1) r c1 = some (b, c2)) :
    evalNode env (f + 1) (.add l r) ctx = some (wadd a b, c2) ∧
    evalNode env (f + 1) (.sub l r) ctx = some (wsub a b, c2) ∧
    evalNode env (f + 1) (.subConst l b) ctx = some (wsub a (wrap b), c1) ∧
    evalNode env (f + 1) (.subArgConst b) ctx =
      some (wsub (BetterFusion.ArgNode.compute ctx) (wrap b), ctx) ∧
    wadd a b = (a + b) % u32Mod ∧
    ((wadd a b : Nat) : Int) ≡ (a : Int) + (b : Int) [ZMOD (u32Mod : Int)] ∧
    (b < u32Mod →
      ((wsub a b : Nat) : Int) ≡ (a : Int) - (b : Int) [ZMOD (u32Mod : Int)]) := by
  simp only [evalNode] at hl hr
  refine ⟨?_, ?_, ?_, ?_, rfl, ?_, ?_⟩
  · simp only [evalNode, evalStep, hl, hr]
  · simp only [evalNode, evalStep, hl, hr]
  · simp only [evalNode, evalStep, hl]
  · simp only [evalNode, evalStep, BetterFusion.SubArgConstNode.compute,
               BetterFusion.ConstNode.compute]
  · simp only [Int.ModEq, wadd, wrap, u32Mod]
    omega
  · intro hb
    simp only [u32Mod] at hb
    simp only [Int.ModEq, wsub, wrap, u32Mod]
    omega

theorem c9_wraparound_witness :
    (evalNode noRetEnv 1 (.const 5) Context.init = some (5, Context.init)) ∧
    (evalNode noRetEnv 1 (.const 7) Context.init = some (7, Context.init)) ∧
    (evalNode noRetEnv 1 (.add (.const 5) (.const 7)) Context.init =
       some (wadd 5 7, Context.init) ∧
     evalNode noRetEnv 1 (.sub (.const 5) (.const 7)) Context.init =
       some (wsub 5 7, Context.init) ∧
     evalNode noRetEnv 1 (.subConst (.const 5) 7) Context.init =
       some (wsub 5 (wrap 7), Context.init) ∧
     evalNode noRetEnv 1 (.subArgConst 7) Context.init =
       some (wsub (BetterFusion.ArgNode.compute Context.init) (wrap 7),
             Context.init) ∧
     wadd 5 7 = (5 + 7) % u32Mod ∧
     ((wadd 5 7 : Nat) : Int) ≡ (5 : Int) + (7 : Int) [ZMOD (u32Mod : Int)] ∧
     ((7 : Nat) < u32Mod →
       ((wsub 5 7 : Nat) : Int) ≡ (5 : Int) - (7 : Int) [ZMOD (u32Mod : Int)])) :=
  ⟨by decide, by decide,
   c9_wraparound noRetEnv 0 (.const 5) (.const 7)
     Context.init Context.init Context.init 5 7 (by decide) (by decide)⟩

/-- C10: the call protocol restores `stackTop`, clears `returnSignal`,
and does not save or restore `returnValue` across frames: after any
completed call, the context's `returnValue` is exactly the value the
call returned. -/
theorem c10_call_frame_effect (env : Env) (fuel : Nat) (fn : Nat) (a : Node)
    (ctx : Context) (v : Nat) (ctx' : Context)
    (h : evalNode env fuel (.call fn a) ctx = some (v, ctx')) :
    ctx'.returnValue = v ∧ ctx'.stopForReturn = false ∧
      ctx'.stackTop = ctx.stackTop :=
  evalNode_call_inv env fuel fn a ctx v ctx' h

theorem c10_call_frame_effect_witness :
    (evalNode retFiveEnv 2 (.call 0 (.const 2)) Context.init =
      some (5, { stopForReturn := false, returnValue := 5,
                 stack := [2], stackTop := 0 })) ∧
    (({ stopForReturn := false, returnValue := 5,
        stack := [2], stackTop := 0 } : Context).returnValue = 5 ∧
     ({ stopForReturn := false, returnValue := 5,
        stack := [2], stackTop := 0 } : Context).stopForReturn = false ∧
     ({ stopForReturn := false, returnValue := 5,
        stack := [2], stackTop := 0 } : Context).stackTop =
       Context.init.stackTop) :=
  ⟨by decide, c10_call_frame_effect retFiveEnv 2 0 (.const 2)
    Context.init 5 _ (by decide)⟩
